import Mathlib

/-!
Shallow embedding of pipr's line-editor core (`src/lineeditor.rs`).

A Rust `String` is UTF-8 encoded; the editor addresses it by *byte* offsets
(`cursor_col`).  We model a line as a `List Char` and byte offsets as the sums
of `Char.utf8Size` over prefixes.  Fallible Rust operations (indexing,
`String::insert`, `String::remove`, `split_off`, slicing — all of which panic
on an out-of-bounds index or a non-boundary byte offset) are modelled with
`Option`, where `none` stands for a panic.
-/

namespace PiprLineEditor

abbrev Line := List Char

/-- Byte length of a line: `str::len` on the UTF-8 encoding. -/
def utf8Len (l : Line) : Nat := (l.map Char.utf8Size).sum

/-- Split a line at a byte offset.  `some (pre, suf)` exactly when the offset
is a UTF-8 character boundary with `n ≤ utf8Len l` (Rust
`str::is_char_boundary`); `none` models the panics / `None`s of byte-slicing
at a non-boundary offset. -/
def splitAtByte : Line → Nat → Option (Line × Line)
  | l, 0 => some ([], l)
  | [], _ + 1 => none
  | c :: cs, n + 1 =>
    if c.utf8Size ≤ n + 1 then
      (splitAtByte cs (n + 1 - c.utf8Size)).map (fun p => (c :: p.1, p.2))
    else none

/-- Rust `s.get(n..)`: the suffix from byte offset `n`, if `n` is a boundary. -/
def getFrom (l : Line) (n : Nat) : Option Line := (splitAtByte l n).map Prod.snd

/-- Rust `s.get(a..b)`: the slice between byte offsets `a` and `b`. -/
def getRange (l : Line) (a b : Nat) : Option Line :=
  if a ≤ b then
    match splitAtByte l b with
    | none => none
    | some pre =>
      match splitAtByte pre.1 a with
      | none => none
      | some mid => some mid.2
  else none

/-- Rust `String::insert(n, c)`: panics (`none`) unless `n` is a boundary. -/
def insertAt (l : Line) (n : Nat) (c : Char) : Option Line :=
  (splitAtByte l n).map (fun p => p.1 ++ c :: p.2)

/-- Rust `String::remove(n)`: removes and returns the character starting at
byte offset `n`; panics (`none`) unless `n` is a boundary with `n < len`. -/
def removeAt (l : Line) (n : Nat) : Option (Char × Line) :=
  match splitAtByte l n with
  | some (p, c :: q) => some (c, p ++ q)
  | _ => none

/-- `n` is a UTF-8 character boundary of `l` (including `n = utf8Len l`). -/
def IsBoundary (l : Line) (n : Nat) : Prop := (splitAtByte l n).isSome

instance (l : Line) (n : Nat) : Decidable (IsBoundary l n) := by
  unfold IsBoundary; infer_instance

/-- The upward boundary scan of `next_char_index`: starting at `n`, increment
until a character boundary is hit.  The source's `while` loop needs at most
`utf8Len l` steps on its domain (`n ≤ utf8Len l`), so that fuel makes the
translation total; on `n > utf8Len l` the source loops forever, a case that is
unreachable from the functions below. -/
def findNextBoundaryFuel : Nat → Line → Nat → Nat
  | 0, _, n => n
  | fuel + 1, l, n => if (getFrom l n).isSome then n else findNextBoundaryFuel fuel l (n + 1)

/-- `EditorState::next_char_index`, as a function of the current line and
cursor column. -/
def next_char_index (l : Line) (col : Nat) : Nat :=
  if col = utf8Len l then col else findNextBoundaryFuel (utf8Len l) l (col + 1)

/-- The downward boundary scan of `prev_char_index`. -/
def findPrevBoundary (l : Line) : Nat → Nat
  | 0 => 0
  | n + 1 => if (getFrom l (n + 1)).isSome then n + 1 else findPrevBoundary l n

/-- `EditorState::prev_char_index`, as a function of the current line and
cursor column. -/
def prev_char_index (l : Line) (col : Nat) : Nat :=
  if col = 0 then 0 else findPrevBoundary l (col - 1)

/-- Modelled from the spec (§4.4 DisplayWidthCalculator): the per-character
terminal column width supplied by the external `unicode_width` crate, which is
not part of this repository's sources: 0 for combining / zero-width marks, 2
for wide East-Asian glyphs, 1 for everything else.  A representative fragment
of the Unicode width table realises the spec's trichotomy. -/
def charWidth (c : Char) : Nat :=
  if (0x300 ≤ c.toNat ∧ c.toNat ≤ 0x36F) ∨ c.toNat = 0x200B then 0
  else if (0x1100 ≤ c.toNat ∧ c.toNat ≤ 0x115F) ∨ (0x2E80 ≤ c.toNat ∧ c.toNat ≤ 0xA4CF) ∨
      (0xAC00 ≤ c.toNat ∧ c.toNat ≤ 0xD7A3) ∨ (0xF900 ≤ c.toNat ∧ c.toNat ≤ 0xFAFF) ∨
      (0xFF00 ≤ c.toNat ∧ c.toNat ≤ 0xFF60) then 2
  else 1

/-- `UnicodeWidthStr::width`: sum of the column widths of the characters. -/
def lineWidth (l : Line) : Nat := (l.map charWidth).sum

/-- `EditorState` from `lineeditor.rs`. -/
structure EditorState where
  lines : List Line
  cursor_line : Nat
  cursor_col : Nat
deriving DecidableEq

/-- `EditorEvent` from `lineeditor.rs`. -/
inductive EditorEvent where
  | NewCharacter (c : Char)
  | NewLine
  | Backspace
  | Delete
  | Clear
  | GoLeft
  | GoRight
  | GoUp
  | GoDown
  | Home
  | End
  | KillWordBack
deriving DecidableEq

/-- `EditorState::new()`. -/
def initState : EditorState := { lines := [[]], cursor_line := 0, cursor_col := 0 }

/-- `EditorState::current_line()` (total with default `[]`; the source panics
when `cursor_line` is out of bounds, which the `Option`-valued operations
below account for at their use sites). -/
def currentLine (s : EditorState) : Line := (s.lines[s.cursor_line]?).getD []

/-- `EditorState::content_str()`: the lines joined with no separator. -/
def content_str (s : EditorState) : Line := s.lines.flatten

/-- `EditorState::content_lines()`. -/
def content_lines (s : EditorState) : List Line := s.lines

/-- `EditorState::displayed_cursor_column()`: the display width of the byte
prefix `current_line()[..cursor_col]`; `none` models the slicing panic at a
non-boundary `cursor_col`. -/
def displayed_cursor_column (s : EditorState) : Option Nat :=
  (splitAtByte (currentLine s) s.cursor_col).map (fun p => lineWidth p.1)

/-- `EditorState::set_content`. -/
def set_content (_s : EditorState) (new_content : List Line) : EditorState :=
  let lines := if new_content.isEmpty then [[]] else new_content
  { lines := lines
    cursor_line := lines.length - 1
    cursor_col := utf8Len ((lines[lines.length - 1]?).getD []) }

/-- Modelled from the spec (§4.5 SnapshotAdapter): `CommandEntry` lives in
`commandlist.rs`, which is not among the provided sources; per the spec a
snapshot is an opaque ordered list of plain-text lines. -/
structure CommandEntry where
  entryLines : List Line
deriving DecidableEq

/-- Modelled from the spec: `CommandEntry::new` wraps the line list. -/
def CommandEntry.new (ls : List Line) : CommandEntry := ⟨ls⟩

/-- Modelled from the spec: `CommandEntry::lines` returns the stored lines. -/
def CommandEntry.getLines (e : CommandEntry) : List Line := e.entryLines

/-- `EditorState::content_to_commandentry`. -/
def content_to_commandentry (s : EditorState) : CommandEntry := CommandEntry.new s.lines

/-- `EditorState::load_commandentry`. -/
def load_commandentry (s : EditorState) (e : CommandEntry) : EditorState :=
  set_content s e.getLines

/-- Rust `Vec::insert(i, x)` (callers below only use it with `i ≤ length`,
where it cannot panic). -/
def vecInsert (ls : List Line) (i : Nat) (x : Line) : List Line :=
  ls.take i ++ x :: ls.drop i

/-- `EditorState::goto_line`: `none` models the `assert!` failing. -/
def goto_line (s : EditorState) (line_nr : Nat) : Option EditorState :=
  if line_nr < s.lines.length then
    match s.lines[line_nr]? with
    | none => none
    | some cur =>
      if utf8Len cur ≤ s.cursor_col then
        some { s with cursor_line := line_nr, cursor_col := utf8Len cur }
      else
        some { s with cursor_line := line_nr }
  else none

/-- The `while let` loop of the `KillWordBack` arm.  Each iteration looks at
the slice between the previous boundary and `cursor_col`, moves the cursor to
that boundary, removes the character there, and stops after removing a
delimiter or once the cursor reaches column 0.  The loop recurses only with a
strictly smaller column, so fuel `col + 1` (used by `killLoop`) always
suffices; `none` models the panic of `remove` on an empty line. -/
def killLoopFuel : Nat → Line → Nat → Option (Line × Nat)
  | 0, _, _ => none
  | fuel + 1, line, col =>
    match getRange line (prev_char_index line col) col with
    | none => some (line, col)
    | some c =>
      let a := prev_char_index line col
      match removeAt line a with
      | none => none
      | some cr =>
        if c = [' '] ∨ c = ['/'] ∨ c = ['\\'] ∨ c = [':'] ∨ c = ['_'] ∨ c = ['-'] ∨ a = 0 then
          some (cr.2, a)
        else killLoopFuel fuel cr.2 a

def killLoop (line : Line) (col : Nat) : Option (Line × Nat) :=
  killLoopFuel (col + 1) line col

/-- `EditorState::apply_event`.  `none` models a panic of the source. -/
def apply_event (s : EditorState) (e : EditorEvent) : Option EditorState :=
  match e with
  | .NewCharacter c => do
    let cur ← s.lines[s.cursor_line]?
    let cur2 ← insertAt cur s.cursor_col c
    some { s with lines := s.lines.set s.cursor_line cur2,
                  cursor_col := next_char_index cur2 s.cursor_col }
  | .NewLine => do
    let cur ← s.lines[s.cursor_line]?
    let pq ← splitAtByte cur s.cursor_col
    let lines2 := vecInsert (s.lines.set s.cursor_line pq.1) (s.cursor_line + 1) pq.2
    let s2 ← goto_line { s with lines := lines2 } (s.cursor_line + 1)
    some { s2 with cursor_col := 0 }
  | .Backspace =>
    if 0 < s.cursor_col then do
      let cur ← s.lines[s.cursor_line]?
      let nc := prev_char_index cur s.cursor_col
      let cr ← removeAt cur nc
      some { s with lines := s.lines.set s.cursor_line cr.2, cursor_col := nc }
    else if 0 < s.cursor_line then do
      let removed ← s.lines[s.cursor_line]?
      let lines2 := s.lines.eraseIdx s.cursor_line
      let prev ← lines2[s.cursor_line - 1]?
      some { lines := lines2.set (s.cursor_line - 1) (prev ++ removed)
             cursor_line := s.cursor_line - 1
             cursor_col := utf8Len prev }
    else some s
  | .Delete => do
    let cur ← s.lines[s.cursor_line]?
    if s.cursor_col < utf8Len cur then do
      let cr ← removeAt cur s.cursor_col
      some { s with lines := s.lines.set s.cursor_line cr.2 }
    else if s.cursor_line < s.lines.length - 1 then do
      let removed ← s.lines[s.cursor_line + 1]?
      some { s with lines := (s.lines.eraseIdx (s.cursor_line + 1)).set s.cursor_line
                               (cur ++ removed) }
    else some s
  | .Clear => some (set_content s [[]])
  | .GoLeft =>
    if 0 < s.cursor_col then do
      let cur ← s.lines[s.cursor_line]?
      some { s with cursor_col := prev_char_index cur s.cursor_col }
    else if 0 < s.cursor_line then do
      let prev ← s.lines[s.cursor_line - 1]?
      some { s with cursor_line := s.cursor_line - 1, cursor_col := utf8Len prev }
    else some s
  | .GoRight => do
    let cur ← s.lines[s.cursor_line]?
    if s.cursor_col < utf8Len cur then
      some { s with cursor_col := next_char_index cur s.cursor_col }
    else if s.cursor_line < s.lines.length - 1 then
      some { s with cursor_line := s.cursor_line + 1, cursor_col := 0 }
    else some s
  | .GoUp => if 0 < s.cursor_line then goto_line s (s.cursor_line - 1) else some s
  | .GoDown =>
    if s.cursor_line < s.lines.length - 1 then goto_line s (s.cursor_line + 1) else some s
  | .Home => some { s with cursor_col := 0 }
  | .End => do
    let cur ← s.lines[s.cursor_line]?
    some { s with cursor_col := utf8Len cur }
  | .KillWordBack => do
    let cur ← s.lines[s.cursor_line]?
    if cur.isEmpty then some s
    else do
      let r ← killLoop cur s.cursor_col
      some { s with lines := s.lines.set s.cursor_line r.1, cursor_col := r.2 }

/-- Folding `apply_event` over a list of events. -/
def applyEvents (s : EditorState) : List EditorEvent → Option EditorState
  | [] => some s
  | e :: es => do
    let s2 ← apply_event s e
    applyEvents s2 es

/-- A structurally valid editor state: the cursor addresses an existing line
at a character boundary.  (`lines ≠ []` follows from the index bound.) -/
def ValidState (s : EditorState) : Prop :=
  s.cursor_line < s.lines.length ∧ IsBoundary (currentLine s) s.cursor_col

instance (s : EditorState) : Decidable (ValidState s) := by
  unfold ValidState; infer_instance

/-- Modelled from the spec (§4.2, KillWordBackward row): repeatedly delete the
character immediately before `col` (found through the boundary resolver),
moving `col` back each time, stopping after deleting one of the delimiters
`{space, slash, backslash, colon, underscore, hyphen}` or when `col` reaches
0.  With `col = 0` no character precedes the cursor, so no iteration runs.
The column strictly decreases at every iteration, so fuel `col` (used by
`killSpec`) always suffices. -/
def killSpecFuel : Nat → Line → Nat → Line × Nat
  | _, line, 0 => (line, 0)
  | 0, line, col => (line, col)
  | fuel + 1, line, col =>
    let a := prev_char_index line col
    match removeAt line a with
    | none => (line, col)
    | some cr =>
      if cr.1 = ' ' ∨ cr.1 = '/' ∨ cr.1 = '\\' ∨ cr.1 = ':' ∨ cr.1 = '_' ∨ cr.1 = '-' ∨ a = 0 then
        (cr.2, a)
      else killSpecFuel fuel cr.2 a

def killSpec (line : Line) (col : Nat) : Line × Nat := killSpecFuel col line col

/-! ### Byte-offset and boundary lemmas -/

theorem utf8Len_nil : utf8Len [] = 0 := rfl

theorem utf8Len_cons (c : Char) (l : Line) : utf8Len (c :: l) = c.utf8Size + utf8Len l := by
  simp [utf8Len]

theorem utf8Len_append (a b : Line) : utf8Len (a ++ b) = utf8Len a + utf8Len b := by
  simp [utf8Len]

theorem splitAtByte_zero (l : Line) : splitAtByte l 0 = some ([], l) := by
  cases l <;> rfl

theorem splitAtByte_eq_some {l p q : Line} {n : Nat}
    (h : splitAtByte l n = some (p, q)) : l = p ++ q ∧ utf8Len p = n := by
  induction l generalizing n p q with
  | nil =>
    cases n with
    | zero => simp [splitAtByte] at h; simp [h.1, h.2, utf8Len]
    | succ k => simp [splitAtByte] at h
  | cons c cs ih =>
    cases n with
    | zero =>
      simp [splitAtByte] at h
      simp [h.1, h.2, utf8Len]
    | succ k =>
      rw [splitAtByte] at h
      by_cases hsz : c.utf8Size ≤ k + 1
      · rw [if_pos hsz, Option.map_eq_some'] at h
        obtain ⟨⟨p1, q1⟩, hsp, heq⟩ := h
        obtain ⟨hp1, hq1⟩ := Prod.mk.inj heq
        subst hp1; subst hq1
        obtain ⟨hl, hlen⟩ := ih hsp
        constructor
        · simp [hl]
        · rw [utf8Len_cons, hlen]; omega
      · rw [if_neg hsz] at h; exact absurd h (by simp)

theorem splitAtByte_append (p q : Line) : splitAtByte (p ++ q) (utf8Len p) = some (p, q) := by
  induction p with
  | nil => simpa [utf8Len] using splitAtByte_zero q
  | cons c cs ih =>
    have hpos := Char.utf8Size_pos c
    rw [utf8Len_cons]
    have hk : ∃ k, c.utf8Size + utf8Len cs = k + 1 := ⟨c.utf8Size + utf8Len cs - 1, by omega⟩
    obtain ⟨k, hk⟩ := hk
    rw [hk, List.cons_append, splitAtByte, if_pos (by omega : c.utf8Size ≤ k + 1)]
    have : k + 1 - c.utf8Size = utf8Len cs := by omega
    rw [this, ih]
    rfl

theorem isBoundary_iff {l : Line} {n : Nat} :
    IsBoundary l n ↔ ∃ p q, l = p ++ q ∧ utf8Len p = n := by
  constructor
  · intro h
    rw [IsBoundary, Option.isSome_iff_exists] at h
    obtain ⟨⟨p, q⟩, hpq⟩ := h
    exact ⟨p, q, splitAtByte_eq_some hpq⟩
  · rintro ⟨p, q, rfl, rfl⟩
    rw [IsBoundary, splitAtByte_append]
    rfl

theorem isBoundary_zero (l : Line) : IsBoundary l 0 := by
  rw [IsBoundary, splitAtByte_zero]; rfl

theorem isBoundary_utf8Len (l : Line) : IsBoundary l (utf8Len l) := by
  rw [isBoundary_iff]
  exact ⟨l, [], by simp⟩

theorem isBoundary_le {l : Line} {n : Nat} (h : IsBoundary l n) : n ≤ utf8Len l := by
  rw [isBoundary_iff] at h
  obtain ⟨p, q, rfl, rfl⟩ := h
  rw [utf8Len_append]; omega

/-- No character boundary lies strictly inside the encoding of a character:
a boundary of `p ++ c :: q` is at most `utf8Len p` or at least
`utf8Len p + c.utf8Size`. -/
theorem isBoundary_append_cons {p q : Line} {c : Char} {j : Nat}
    (h : IsBoundary (p ++ c :: q) j) : j ≤ utf8Len p ∨ utf8Len p + c.utf8Size ≤ j := by
  rw [isBoundary_iff] at h
  obtain ⟨a, b, hab, rfl⟩ := h
  rcases (List.append_eq_append_iff.mp hab.symm) with ⟨t, hp, hb⟩ | ⟨t, ha, ht⟩
  · left; rw [hp, utf8Len_append]; omega
  · rcases t with _ | ⟨c1, t⟩
    · left; simp at ha; simp [ha]
    · right
      obtain ⟨hc, _⟩ := List.cons.inj ht
      rw [ha, utf8Len_append, utf8Len_cons, hc]
      omega

theorem getFrom_isSome_iff {l : Line} {n : Nat} : (getFrom l n).isSome ↔ IsBoundary l n := by
  rw [getFrom, IsBoundary]
  cases splitAtByte l n <;> simp

theorem findNextBoundaryFuel_spec (l : Line) :
    ∀ fuel n, n ≤ utf8Len l → utf8Len l - n ≤ fuel →
      IsBoundary l (findNextBoundaryFuel fuel l n) ∧ n ≤ findNextBoundaryFuel fuel l n ∧
      ∀ j, n ≤ j → IsBoundary l j → findNextBoundaryFuel fuel l n ≤ j := by
  intro fuel
  induction fuel with
  | zero =>
    intro n hn hfuel
    have : n = utf8Len l := by omega
    subst this
    rw [findNextBoundaryFuel]
    exact ⟨isBoundary_utf8Len l, le_refl _, fun j hj _ => hj⟩
  | succ fuel ih =>
    intro n hn hfuel
    rw [findNextBoundaryFuel]
    by_cases hb : (getFrom l n).isSome
    · rw [if_pos hb]
      exact ⟨getFrom_isSome_iff.mp hb, le_refl _, fun j hj _ => hj⟩
    · rw [if_neg hb]
      have hnb : ¬ IsBoundary l n := fun h => hb (getFrom_isSome_iff.mpr h)
      have hlt : n < utf8Len l := by
        rcases Nat.lt_or_ge n (utf8Len l) with h | h
        · exact h
        · exact absurd ((by omega : n = utf8Len l) ▸ isBoundary_utf8Len l) hnb
      obtain ⟨h1, h2, h3⟩ := ih (n + 1) (by omega) (by omega)
      refine ⟨h1, by omega, fun j hj hbj => ?_⟩
      have : n + 1 ≤ j := by
        rcases Nat.eq_or_lt_of_le hj with rfl | h
        · exact absurd hbj hnb
        · omega
      exact h3 j this hbj

/-- `next_char_index` on its domain: the least boundary strictly above `col`
(and `col` itself when `col` is already the byte length). -/
theorem next_char_index_spec {l : Line} {col : Nat} (h : col ≤ utf8Len l) :
    IsBoundary l (next_char_index l col) ∧ next_char_index l col ≤ utf8Len l ∧
      (col = utf8Len l → next_char_index l col = col) ∧
      (col < utf8Len l → col < next_char_index l col ∧
        ∀ j, col < j → IsBoundary l j → next_char_index l col ≤ j) := by
  rw [next_char_index]
  by_cases hc : col = utf8Len l
  · rw [if_pos hc]
    subst hc
    exact ⟨isBoundary_utf8Len l, le_refl _, fun _ => rfl, fun h2 => absurd h2 (by omega)⟩
  · rw [if_neg hc]
    have hlt : col < utf8Len l := by omega
    obtain ⟨h1, h2, h3⟩ := findNextBoundaryFuel_spec l (utf8Len l) (col + 1) (by omega) (by omega)
    exact ⟨h1, isBoundary_le h1, fun he => absurd he hc,
      fun _ => ⟨by omega, fun j hj hbj => h3 j (by omega) hbj⟩⟩

theorem findPrevBoundary_spec (l : Line) :
    ∀ n, IsBoundary l (findPrevBoundary l n) ∧ findPrevBoundary l n ≤ n ∧
      ∀ j, IsBoundary l j → j ≤ n → j ≤ findPrevBoundary l n := by
  intro n
  induction n with
  | zero =>
    rw [findPrevBoundary]
    exact ⟨isBoundary_zero l, le_refl _, fun j _ hj => hj⟩
  | succ n ih =>
    rw [findPrevBoundary]
    by_cases hb : (getFrom l (n + 1)).isSome
    · rw [if_pos hb]
      exact ⟨getFrom_isSome_iff.mp hb, le_refl _, fun j _ hj => hj⟩
    · rw [if_neg hb]
      have hnb : ¬ IsBoundary l (n + 1) := fun h => hb (getFrom_isSome_iff.mpr h)
      obtain ⟨h1, h2, h3⟩ := ih
      refine ⟨h1, by omega, fun j hbj hj => ?_⟩
      have : j ≤ n := by
        rcases Nat.eq_or_lt_of_le hj with rfl | h
        · exact absurd hbj hnb
        · omega
      exact h3 j hbj this

/-- `prev_char_index`: the greatest boundary strictly below `col` (and 0 when
`col = 0`). -/
theorem prev_char_index_spec (l : Line) (col : Nat) :
    IsBoundary l (prev_char_index l col) ∧ prev_char_index l col ≤ col ∧
      (col = 0 → prev_char_index l col = 0) ∧
      (0 < col → prev_char_index l col < col ∧
        ∀ j, IsBoundary l j → j < col → j ≤ prev_char_index l col) := by
  rw [prev_char_index]
  by_cases hc : col = 0
  · rw [if_pos hc]
    exact ⟨isBoundary_zero l, by omega, fun _ => rfl, fun h => absurd hc (by omega)⟩
  · rw [if_neg hc]
    obtain ⟨h1, h2, h3⟩ := findPrevBoundary_spec l (col - 1)
    exact ⟨h1, by omega, fun he => absurd he hc,
      fun _ => ⟨by omega, fun j hbj hj => h3 j hbj (by omega)⟩⟩

/-- A positive boundary column decomposes the line around the character that
ends at the cursor. -/
theorem exists_char_before {l : Line} {col : Nat} (hb : IsBoundary l col) (hpos : 0 < col) :
    ∃ p c q, l = p ++ c :: q ∧ col = utf8Len p + c.utf8Size := by
  rw [isBoundary_iff] at hb
  obtain ⟨p, q, rfl, rfl⟩ := hb
  rcases List.eq_nil_or_concat p with rfl | ⟨p1, c, rfl⟩
  · exact absurd hpos (by simp [utf8Len])
  · refine ⟨p1, c, q, by simp, ?_⟩
    rw [List.concat_eq_append, utf8Len_append, utf8Len_cons, utf8Len_nil]
    omega

/-- At the end of a character, `prev_char_index` lands exactly at its start. -/
theorem prev_char_index_at_char_end {p q : Line} {c : Char} :
    prev_char_index (p ++ c :: q) (utf8Len p + c.utf8Size) = utf8Len p := by
  have hpos := Char.utf8Size_pos c
  obtain ⟨h1, h2, _, h4⟩ := prev_char_index_spec (p ++ c :: q) (utf8Len p + c.utf8Size)
  obtain ⟨hlt, hmax⟩ := h4 (by omega)
  have hpb : IsBoundary (p ++ c :: q) (utf8Len p) := isBoundary_iff.mpr ⟨p, c :: q, rfl, rfl⟩
  have hge : utf8Len p ≤ prev_char_index (p ++ c :: q) (utf8Len p + c.utf8Size) :=
    hmax (utf8Len p) hpb (by omega)
  have hle : prev_char_index (p ++ c :: q) (utf8Len p + c.utf8Size) ≤ utf8Len p := by
    rcases isBoundary_append_cons h1 with h | h
    · exact h
    · omega
  omega

/-- At the start of a character, `next_char_index` lands exactly at its end. -/
theorem next_char_index_at_char_start {p q : Line} {c : Char} :
    next_char_index (p ++ c :: q) (utf8Len p) = utf8Len p + c.utf8Size := by
  have hpos := Char.utf8Size_pos c
  have hlen : utf8Len (p ++ c :: q) = utf8Len p + c.utf8Size + utf8Len q := by
    rw [utf8Len_append, utf8Len_cons]; omega
  have hlt : utf8Len p < utf8Len (p ++ c :: q) := by omega
  obtain ⟨h1, h2, _, h4⟩ := next_char_index_spec (le_of_lt hlt)
  obtain ⟨hgt, hmin⟩ := h4 hlt
  have hcb : IsBoundary (p ++ c :: q) (utf8Len p + c.utf8Size) := by
    rw [isBoundary_iff]
    exact ⟨p ++ [c], q, by simp, by simp [utf8Len_append, utf8Len_cons, utf8Len_nil]⟩
  have hle : next_char_index (p ++ c :: q) (utf8Len p) ≤ utf8Len p + c.utf8Size :=
    hmin _ (by omega) hcb
  have hge : utf8Len p + c.utf8Size ≤ next_char_index (p ++ c :: q) (utf8Len p) := by
    rcases isBoundary_append_cons h1 with h | h
    · omega
    · exact h
  omega

/-- `removeAt` at the start of a character removes exactly that character. -/
theorem removeAt_append_cons (p q : Line) (c : Char) :
    removeAt (p ++ c :: q) (utf8Len p) = some (c, p ++ q) := by
  rw [removeAt, splitAtByte_append]

/-- `insertAt` at a boundary splices the character in. -/
theorem insertAt_append (p q : Line) (c : Char) :
    insertAt (p ++ q) (utf8Len p) c = some (p ++ c :: q) := by
  rw [insertAt, splitAtByte_append]
  rfl

/-- The slice from the previous boundary to the end of a character is that
single character. -/
theorem getRange_char {p q : Line} {c : Char} :
    getRange (p ++ c :: q) (utf8Len p) (utf8Len p + c.utf8Size) = some [c] := by
  have hpos := Char.utf8Size_pos c
  rw [getRange, if_pos (by omega)]
  have h1 : splitAtByte (p ++ c :: q) (utf8Len p + c.utf8Size) = some (p ++ [c], q) := by
    have he : utf8Len p + c.utf8Size = utf8Len (p ++ [c]) := by
      simp [utf8Len_append, utf8Len_cons, utf8Len_nil]
    rw [he, show p ++ c :: q = (p ++ [c]) ++ q by simp, splitAtByte_append]
  have h2 : splitAtByte (p ++ [c]) (utf8Len p) = some (p, [c]) := splitAtByte_append p [c]
  rw [h1]
  simp [h2]

theorem getRange_zero_zero (l : Line) : getRange l 0 0 = some [] := by
  rw [getRange, if_pos (le_refl 0), splitAtByte_zero]
  simp [splitAtByte_zero]

/-! ### Line-vector shape lemmas -/

theorem set_append_len {α : Type} (A : List α) (x y : α) (B : List α) :
    (A ++ x :: B).set A.length y = A ++ y :: B := by
  induction A with
  | nil => rfl
  | cons a A ih => simp [List.set, ih]

theorem eraseIdx_append_len {α : Type} (A : List α) (x : α) (B : List α) :
    (A ++ x :: B).eraseIdx A.length = A ++ B := by
  induction A with
  | nil => rfl
  | cons a A ih => simp [List.eraseIdx, ih]

theorem getq_append_len {α : Type} (A : List α) (x : α) (B : List α) :
    (A ++ x :: B)[A.length]? = some x := by
  induction A with
  | nil => simp
  | cons a A ih => simpa using ih

theorem getq_append_len_succ {α : Type} (A : List α) (x : α) (B : List α) :
    (A ++ x :: B)[A.length + 1]? = B[0]? := by
  induction A with
  | nil => simp
  | cons a A ih => simpa using ih

theorem vecInsert_append_len (A B : List Line) (x : Line) :
    vecInsert (A ++ B) A.length x = A ++ x :: B := by
  rw [vecInsert, List.take_left, List.drop_left]

theorem exists_decomp {α : Type} {l : List α} {i : Nat} (h : i < l.length) :
    ∃ A x B, l = A ++ x :: B ∧ A.length = i := by
  induction l generalizing i with
  | nil => simp at h
  | cons a rest ih =>
    cases i with
    | zero => exact ⟨[], a, rest, rfl, rfl⟩
    | succ i =>
      obtain ⟨A, x, B, hd, hl⟩ := ih (by simpa using h)
      exact ⟨a :: A, x, B, by simp [hd], by simp [hl]⟩

theorem currentLine_of_getq {s : EditorState} {cur : Line}
    (h : s.lines[s.cursor_line]? = some cur) : currentLine s = cur := by
  rw [currentLine, h]
  rfl

/-! ### The KillWordBack loop -/

/-- Unfolding of one `killSpecFuel` iteration at a positive column. -/
theorem killSpecFuel_succ (fuel : Nat) (line : Line) (col : Nat) (h : 0 < col) :
    killSpecFuel (fuel + 1) line col =
      (let a := prev_char_index line col
       match removeAt line a with
       | none => (line, col)
       | some cr =>
         if cr.1 = ' ' ∨ cr.1 = '/' ∨ cr.1 = '\\' ∨ cr.1 = ':' ∨ cr.1 = '_' ∨ cr.1 = '-' ∨
             a = 0 then
           (cr.2, a)
         else killSpecFuel fuel cr.2 a) := by
  obtain ⟨k, rfl⟩ : ∃ k, col = k + 1 := ⟨col - 1, by omega⟩
  rfl

/-- The source's kill loop agrees with the spec-modelled word kill on every
positive boundary column, and its result column is again a boundary. -/
theorem killLoopFuel_eq_killSpecFuel :
    ∀ col line fuel1 fuel2, col < fuel1 → col ≤ fuel2 → 0 < col → IsBoundary line col →
      killLoopFuel fuel1 line col = some (killSpecFuel fuel2 line col) ∧
      IsBoundary (killSpecFuel fuel2 line col).1 (killSpecFuel fuel2 line col).2 := by
  intro col
  induction col using Nat.strong_induction_on with
  | _ col ih =>
    intro line fuel1 fuel2 hf1 hf2 hpos hb
    obtain ⟨f1, rfl⟩ : ∃ f1, fuel1 = f1 + 1 := ⟨fuel1 - 1, by omega⟩
    obtain ⟨f2, rfl⟩ : ∃ f2, fuel2 = f2 + 1 := ⟨fuel2 - 1, by omega⟩
    obtain ⟨p, c, q, rfl, hcol⟩ := exists_char_before hb hpos
    rw [hcol] at hf1 hf2 ⊢
    have hprev : prev_char_index (p ++ c :: q) (utf8Len p + c.utf8Size) = utf8Len p :=
      prev_char_index_at_char_end
    have hrange := @getRange_char p q c
    have hrem := removeAt_append_cons p q c
    have hszpos := Char.utf8Size_pos c
    rw [killLoopFuel, hprev, hrange]
    rw [killSpecFuel_succ _ _ _ (by omega)]
    simp only [hprev, hrem]
    have hsingle : ∀ x : Char, ([c] = [x]) = (c = x) := by intro x; simp
    by_cases hstop : c = ' ' ∨ c = '/' ∨ c = '\\' ∨ c = ':' ∨ c = '_' ∨ c = '-' ∨ utf8Len p = 0
    · rw [if_pos (by simpa [hsingle] using hstop), if_pos hstop]
      exact ⟨rfl, isBoundary_iff.mpr ⟨p, q, rfl, rfl⟩⟩
    · rw [if_neg (by simpa [hsingle] using hstop), if_neg hstop]
      have hppos : 0 < utf8Len p := by
        rcases Nat.eq_zero_or_pos (utf8Len p) with h | h
        · exact absurd (by tauto) hstop
        · exact h
      have hplt : utf8Len p < col := by omega
      exact ih (utf8Len p) hplt (p ++ q) f1 f2 (by omega) (by omega) hppos
        (isBoundary_iff.mpr ⟨p, q, rfl, rfl⟩)

/-- The kill loop entered at column 0 on a non-empty line removes the first
character and leaves the column at 0. -/
theorem killLoop_zero (c : Char) (rest : Line) :
    killLoop (c :: rest) 0 = some (rest, 0) := by
  have hprev : prev_char_index (c :: rest) 0 = 0 := by rw [prev_char_index, if_pos rfl]
  have hrem : removeAt (c :: rest) 0 = some (c, rest) := rfl
  rw [killLoop, killLoopFuel, hprev, getRange_zero_zero]
  simp [hrem]

theorem killLoop_eq_killSpec {line : Line} {col : Nat} (hpos : 0 < col)
    (hb : IsBoundary line col) :
    killLoop line col = some (killSpec line col) ∧
      IsBoundary (killSpec line col).1 (killSpec line col).2 :=
  killLoopFuel_eq_killSpecFuel col line (col + 1) col (by omega) (le_refl col) hpos hb

/-! ### Evaluation lemmas for `apply_event` -/

theorem getq_some_of_lt {α : Type} {l : List α} {i : Nat} (h : i < l.length) :
    ∃ a, l[i]? = some a :=
  ⟨l[i], List.getElem?_eq_getElem h⟩

theorem lt_length_of_getq_some {α : Type} {ls : List α} {i : Nat} {a : α}
    (h : ls[i]? = some a) : i < ls.length :=
  (List.getElem?_eq_some.mp h).1

theorem getq_last_of_eq_concat {α : Type} {ls A : List α} {x : α} (h : ls = A ++ [x]) :
    ls[ls.length - 1]? = some x := by
  subst h
  have hl : (A ++ [x]).length - 1 = A.length := by simp
  rw [hl]
  exact getq_append_len A x []

/-- `set_content` on a non-empty line list installs it verbatim. -/
theorem set_content_eq_of_ne_nil (s : EditorState) {ls : List Line} (hne : ls ≠ [])
    {last : Line} (hlast : ls[ls.length - 1]? = some last) :
    set_content s ls = ⟨ls, ls.length - 1, utf8Len last⟩ := by
  have hie : ls.isEmpty = false := by
    cases ls
    · exact absurd rfl hne
    · rfl
  simp [set_content, hie, hlast]

/-- `goto_line` at a valid line index clamps the column with `min`. -/
theorem goto_line_eq {s : EditorState} {i : Nat} {l : Line} (h : s.lines[i]? = some l) :
    goto_line s i =
      some { s with cursor_line := i, cursor_col := min s.cursor_col (utf8Len l) } := by
  rw [goto_line, if_pos (lt_length_of_getq_some h), h]
  by_cases hc : utf8Len l ≤ s.cursor_col
  · simp [hc, Nat.min_eq_right hc]
  · simp [hc, Nat.min_eq_left (by omega : s.cursor_col ≤ utf8Len l)]

/-! ### Claims -/

/-- C1 (code_bug evidence): from the initial state, the event sequence
«ä, ä, SplitLine, a, b, c, MoveUp» reaches the state with lines
`["ää", "abc"]` and cursor `(0, 3)` — but byte offset 3 is *not* a UTF-8
character boundary of `"ää"`, so the invariant claimed by the spec is
violated: `goto_line` clamps the column only by length, never to a character
boundary. -/
theorem c1_goUp_reaches_non_boundary_cursor :
    applyEvents initState
        [.NewCharacter 'ä', .NewCharacter 'ä', .NewLine, .NewCharacter 'a',
         .NewCharacter 'b', .NewCharacter 'c', .GoUp] =
      some { lines := [['ä', 'ä'], ['a', 'b', 'c']], cursor_line := 0, cursor_col := 3 } ∧
    ¬ IsBoundary [Char.ofNat 0xE4, Char.ofNat 0xE4] 3 ∧
    (⟨[['ä', 'ä'], ['a', 'b', 'c']], 0, 3⟩ : EditorState).cursor_col ≤
      utf8Len (currentLine ⟨[['ä', 'ä'], ['a', 'b', 'c']], 0, 3⟩) := by
  decide

/-- C2 (code_bug evidence): on the reachable state with lines `["ää", "abc"]`
and cursor `(0, 3)` (mid-character), `displayed_cursor_column` models a
slicing panic (`none`) and `apply_event` with `InsertChar 'x'` models the
panic of `String::insert` at a non-boundary offset (`none`), so `apply_event`
is not total over the reachable states. -/
theorem c2_insert_and_display_panic_after_goUp :
    applyEvents initState
        [.NewCharacter 'ä', .NewCharacter 'ä', .NewLine, .NewCharacter 'a',
         .NewCharacter 'b', .NewCharacter 'c', .GoUp] =
      some { lines := [['ä', 'ä'], ['a', 'b', 'c']], cursor_line := 0, cursor_col := 3 } ∧
    apply_event ⟨[['ä', 'ä'], ['a', 'b', 'c']], 0, 3⟩ (.NewCharacter 'x') = none ∧
    displayed_cursor_column ⟨[['ä', 'ä'], ['a', 'b', 'c']], 0, 3⟩ = none := by
  decide

/-- C4: `MoveUp` at a positive line index and `MoveDown` above the last line
move the cursor to the adjacent line, clamp the column with `min` against
that line's byte length, and leave the line contents unchanged; the spec's
Scenario D on `["abc", "a"]` follows concretely. -/
theorem c4_vertical_motion_clamps_column (s : EditorState) (h : ValidState s) :
    (0 < s.cursor_line → ∃ prev, s.lines[s.cursor_line - 1]? = some prev ∧
      apply_event s .GoUp = some { s with cursor_line := s.cursor_line - 1,
                                          cursor_col := min s.cursor_col (utf8Len prev) }) ∧
    (s.cursor_line + 1 < s.lines.length → ∃ nxt, s.lines[s.cursor_line + 1]? = some nxt ∧
      apply_event s .GoDown = some { s with cursor_line := s.cursor_line + 1,
                                            cursor_col := min s.cursor_col (utf8Len nxt) }) ∧
    (apply_event ⟨[['a', 'b', 'c'], ['a']], 1, 1⟩ .GoUp =
        some ⟨[['a', 'b', 'c'], ['a']], 0, 1⟩ ∧
      apply_event ⟨[['a', 'b', 'c'], ['a']], 0, 1⟩ .End =
        some ⟨[['a', 'b', 'c'], ['a']], 0, 3⟩ ∧
      apply_event ⟨[['a', 'b', 'c'], ['a']], 0, 3⟩ .GoDown =
        some ⟨[['a', 'b', 'c'], ['a']], 1, 1⟩) := by
  refine ⟨?_, ?_, by decide⟩
  · intro h0
    obtain ⟨prev, hprev⟩ := getq_some_of_lt (l := s.lines) (i := s.cursor_line - 1)
      (by have := h.1; omega)
    exact ⟨prev, hprev, by
      show (if 0 < s.cursor_line then goto_line s (s.cursor_line - 1) else some s) = _
      rw [if_pos h0, goto_line_eq hprev]⟩
  · intro h1
    obtain ⟨nxt, hnxt⟩ := getq_some_of_lt (l := s.lines) (i := s.cursor_line + 1) h1
    exact ⟨nxt, hnxt, by
      show (if s.cursor_line < s.lines.length - 1 then goto_line s (s.cursor_line + 1)
            else some s) = _
      rw [if_pos (by omega), goto_line_eq hnxt]⟩

theorem c4_vertical_motion_clamps_column_witness :
    apply_event ⟨[['a', 'b'], ['c']], 1, 1⟩ .GoUp =
      some ⟨[['a', 'b'], ['c']], 0, min 1 (utf8Len ['a', 'b'])⟩ := by
  obtain ⟨prev, hp, he⟩ :=
    (c4_vertical_motion_clamps_column ⟨[['a', 'b'], ['c']], 1, 1⟩ (by decide)).1 (by decide)
  have hprev : prev = ['a', 'b'] := by
    simp only [List.getElem?_cons_zero] at hp
    exact (Option.some.inj hp).symm
  subst hprev
  exact he

/-- C7: `next_char_index` returns the least character boundary strictly above
the offset (or the length when already there), `prev_char_index` the greatest
boundary strictly below (or 0 at the start); both stay in range and on
boundaries, so they never split a multi-byte character. -/
theorem c7_boundary_resolver_spec {l : Line} {i : Nat} (h : i ≤ utf8Len l) :
    IsBoundary l (next_char_index l i) ∧ next_char_index l i ≤ utf8Len l ∧
    IsBoundary l (prev_char_index l i) ∧ prev_char_index l i ≤ i ∧
    (i = utf8Len l → next_char_index l i = i) ∧
    (i < utf8Len l → i < next_char_index l i ∧
      ∀ j, i < j → IsBoundary l j → next_char_index l i ≤ j) ∧
    (i = 0 → prev_char_index l i = 0) ∧
    (0 < i → prev_char_index l i < i ∧
      ∀ j, IsBoundary l j → j < i → j ≤ prev_char_index l i) := by
  obtain ⟨n1, n2, n3, n4⟩ := next_char_index_spec h
  obtain ⟨p1, p2, p3, p4⟩ := prev_char_index_spec l i
  exact ⟨n1, n2, p1, p2, n3, n4, p3, p4⟩

theorem c7_boundary_resolver_spec_witness :
    (3 : Nat) ≤ utf8Len ['ä', 'ä'] ∧
      IsBoundary ['ä', 'ä'] (next_char_index ['ä', 'ä'] 3) ∧
      IsBoundary ['ä', 'ä'] (prev_char_index ['ä', 'ä'] 3) :=
  ⟨by decide, (c7_boundary_resolver_spec (l := ['ä', 'ä']) (i := 3) (by decide)).1,
    (c7_boundary_resolver_spec (l := ['ä', 'ä']) (i := 3) (by decide)).2.2.1⟩

/-- C9: `set_content` is total; empty input is normalised to one empty line,
non-empty input is installed verbatim, and the cursor ends on the last line
at its byte length — the zero-line state is unreachable through it. -/
theorem c9_set_content_normalises (s : EditorState) (ls : List Line) :
    (set_content s ls).lines ≠ [] ∧
    (ls = [] → (set_content s ls).lines = [[]]) ∧
    (ls ≠ [] → (set_content s ls).lines = ls) ∧
    (set_content s ls).cursor_line = (set_content s ls).lines.length - 1 ∧
    ∃ last, (set_content s ls).lines[(set_content s ls).lines.length - 1]? = some last ∧
      (set_content s ls).cursor_col = utf8Len last := by
  rcases eq_or_ne ls [] with rfl | hne
  · exact ⟨by simp [set_content], fun _ => by simp [set_content], fun hc => absurd rfl hc,
      rfl, [], by simp [set_content], rfl⟩
  · obtain ⟨A, x, hAx⟩ := (List.eq_nil_or_concat ls).resolve_left hne
    rw [List.concat_eq_append] at hAx
    have hlast : ls[ls.length - 1]? = some x := getq_last_of_eq_concat hAx
    have heq := set_content_eq_of_ne_nil s hne hlast
    rw [heq]
    exact ⟨hne, fun hc => absurd hc hne, fun _ => rfl, rfl, x, hlast, rfl⟩

theorem c9_set_content_normalises_witness :
    (set_content initState [['a']]).lines = [['a']] :=
  (c9_set_content_normalises initState [['a']]).2.2.1 (by simp)

/-- C6: reloading the snapshot exported from a valid state restores exactly
the same lines, with the cursor at the last line's end. -/
theorem c6_snapshot_roundtrip (s : EditorState) (h : ValidState s) :
    ∃ last, s.lines[s.lines.length - 1]? = some last ∧
      load_commandentry s (content_to_commandentry s) =
        { lines := s.lines, cursor_line := s.lines.length - 1, cursor_col := utf8Len last } := by
  have hlen : 0 < s.lines.length := by
    have := h.1
    omega
  have hne : s.lines ≠ [] := by
    intro hc
    rw [hc] at hlen
    simp at hlen
  obtain ⟨A, x, hAx⟩ := (List.eq_nil_or_concat s.lines).resolve_left hne
  rw [List.concat_eq_append] at hAx
  have hlast : s.lines[s.lines.length - 1]? = some x := getq_last_of_eq_concat hAx
  refine ⟨x, hlast, ?_⟩
  show set_content s s.lines = _
  exact set_content_eq_of_ne_nil s hne hlast

theorem c6_snapshot_roundtrip_witness :
    load_commandentry ⟨[['a'], ['b', 'c']], 0, 1⟩
        (content_to_commandentry ⟨[['a'], ['b', 'c']], 0, 1⟩) =
      ⟨[['a'], ['b', 'c']], 1, 2⟩ := by
  obtain ⟨last, hl, he⟩ := c6_snapshot_roundtrip ⟨[['a'], ['b', 'c']], 0, 1⟩ (by decide)
  have hlast : last = ['b', 'c'] := by
    simp only [List.length_cons, List.length_nil] at hl
    simp at hl
    exact hl.symm
  subst hlast
  exact he.trans (by decide)

theorem splitAtByte_after_char (p q : Line) (c : Char) :
    splitAtByte (p ++ c :: q) (utf8Len p + c.utf8Size) = some (p ++ [c], q) := by
  have he : utf8Len p + c.utf8Size = utf8Len (p ++ [c]) := by
    simp [utf8Len_append, utf8Len_cons, utf8Len_nil]
  rw [he, show p ++ c :: q = (p ++ [c]) ++ q by simp, splitAtByte_append]

theorem lineWidth_append (a b : Line) : lineWidth (a ++ b) = lineWidth a + lineWidth b := by
  simp [lineWidth]

/-- C5: `Backspace` is the claimed three-case function: with `col > 0` it
removes exactly the character ending at `col` and retreats to its start; at
`col = 0` on a later line it appends the current line to the previous one,
drops the current line, and puts the cursor at the previous line's pre-merge
byte length; at `(0, 0)` it is a no-op. -/
theorem c5_backspace_three_cases (s : EditorState) (h : ValidState s) :
    (0 < s.cursor_col → ∃ p c q, currentLine s = p ++ c :: q ∧
      s.cursor_col = utf8Len p + c.utf8Size ∧
      apply_event s .Backspace =
        some { s with lines := s.lines.set s.cursor_line (p ++ q),
                      cursor_col := utf8Len p }) ∧
    (s.cursor_col = 0 → 0 < s.cursor_line → ∃ A prev B,
      s.lines = A ++ prev :: currentLine s :: B ∧ A.length + 1 = s.cursor_line ∧
      apply_event s .Backspace =
        some ⟨A ++ (prev ++ currentLine s) :: B, s.cursor_line - 1, utf8Len prev⟩) ∧
    (s.cursor_col = 0 → s.cursor_line = 0 → apply_event s .Backspace = some s) := by
  obtain ⟨hcl, hb⟩ := h
  obtain ⟨cur, hcur⟩ := getq_some_of_lt hcl
  have hcl2 : currentLine s = cur := currentLine_of_getq hcur
  refine ⟨?_, ?_, ?_⟩
  · intro hpos
    obtain ⟨p, c, q, hdec, hcol⟩ := exists_char_before hb hpos
    refine ⟨p, c, q, hdec, hcol, ?_⟩
    rw [hcl2] at hdec
    subst hdec
    have hprev : prev_char_index (p ++ c :: q) s.cursor_col = utf8Len p := by
      rw [hcol]
      exact prev_char_index_at_char_end
    simp only [apply_event, if_pos hpos, hcur, Option.bind_eq_bind, Option.some_bind, hprev,
      removeAt_append_cons]
  · intro hz hl
    obtain ⟨A, prev, B0, hdec, hA⟩ := exists_decomp (l := s.lines) (i := s.cursor_line - 1)
      (by omega)
    have hA1 : A.length + 1 = s.cursor_line := by omega
    have hcur2 : B0[0]? = some cur := by
      rw [hdec] at hcur
      rw [← hcur, ← hA1]
      exact (getq_append_len_succ A prev B0).symm
    obtain ⟨B, rfl⟩ : ∃ B, B0 = cur :: B := by
      cases B0 with
      | nil => simp at hcur2
      | cons b B =>
        have hb : b = cur := by simpa using hcur2
        exact ⟨B, by rw [hb]⟩
    rw [← hcl2] at hdec
    refine ⟨A, prev, B, hdec, hA1, ?_⟩
    rw [hcl2] at hdec ⊢
    have herase : s.lines.eraseIdx s.cursor_line = A ++ prev :: B := by
      rw [hdec, ← hA1, show A ++ prev :: cur :: B = (A ++ [prev]) ++ cur :: B by simp,
        show A.length + 1 = (A ++ [prev]).length by simp]
      rw [eraseIdx_append_len]
      simp
    have hget2 : (A ++ prev :: B)[s.cursor_line - 1]? = some prev := by
      rw [← hA]
      exact getq_append_len A prev B
    have hset : (A ++ prev :: B).set (s.cursor_line - 1) (prev ++ cur) =
        A ++ (prev ++ cur) :: B := by
      rw [← hA]
      exact set_append_len A prev (prev ++ cur) B
    simp only [apply_event, if_neg (by omega : ¬ 0 < s.cursor_col), if_pos hl, hcur,
      Option.bind_eq_bind, Option.some_bind, herase, hget2, hset]
  · intro hz hz2
    simp only [apply_event, if_neg (by omega : ¬ 0 < s.cursor_col),
      if_neg (by omega : ¬ 0 < s.cursor_line)]

theorem c5_backspace_three_cases_witness :
    0 < (2 : Nat) ∧ ∃ p c q, currentLine ⟨[['a', 'b']], 0, 2⟩ = p ++ c :: q ∧
      (2 : Nat) = utf8Len p + c.utf8Size ∧
      apply_event ⟨[['a', 'b']], 0, 2⟩ .Backspace =
        some { (⟨[['a', 'b']], 0, 2⟩ : EditorState) with
               lines := [['a', 'b']].set 0 (p ++ q), cursor_col := utf8Len p } :=
  ⟨by decide, (c5_backspace_three_cases ⟨[['a', 'b']], 0, 2⟩ (by decide)).1 (by decide)⟩

/-- C8: `displayed_cursor_column` is the width sum (`lineWidth`, i.e. the sum
of per-character rendered widths) of the byte prefix before the cursor, and
inserting any character advances it by exactly that character's width — by 2
for a wide glyph, by 0 for a combining mark. -/
theorem c8_display_width (s : EditorState) (h : ValidState s) (c : Char) :
    (∃ p q, splitAtByte (currentLine s) s.cursor_col = some (p, q) ∧
      displayed_cursor_column s = some (lineWidth p) ∧
      ∃ s2, apply_event s (.NewCharacter c) = some s2 ∧
        displayed_cursor_column s2 = some (lineWidth p + charWidth c)) ∧
    charWidth '中' = 2 ∧ charWidth (Char.ofNat 0x301) = 0 := by
  refine ⟨?_, by decide, by decide⟩
  obtain ⟨hcl, hb⟩ := h
  obtain ⟨cur, hcur⟩ := getq_some_of_lt hcl
  have hcl2 : currentLine s = cur := currentLine_of_getq hcur
  obtain ⟨⟨p, q⟩, hsplit⟩ := Option.isSome_iff_exists.mp hb
  obtain ⟨hdec, hcol⟩ := splitAtByte_eq_some (hcl2 ▸ hsplit)
  refine ⟨p, q, hsplit, ?_, ?_⟩
  · rw [displayed_cursor_column, hsplit]
    rfl
  · have hins : insertAt cur s.cursor_col c = some (p ++ c :: q) := by
      rw [hdec, ← hcol]
      exact insertAt_append p q c
    have hnext : next_char_index (p ++ c :: q) s.cursor_col = utf8Len p + c.utf8Size := by
      rw [← hcol]
      exact next_char_index_at_char_start
    have happ : apply_event s (.NewCharacter c) =
        some { s with lines := s.lines.set s.cursor_line (p ++ c :: q),
                      cursor_col := utf8Len p + c.utf8Size } := by
      simp only [apply_event, hcur, Option.bind_eq_bind, Option.some_bind, hins, hnext]
    refine ⟨_, happ, ?_⟩
    have hget : (s.lines.set s.cursor_line (p ++ c :: q))[s.cursor_line]? =
        some (p ++ c :: q) := List.getElem?_set_self (by simpa using hcl)
    rw [displayed_cursor_column]
    show (splitAtByte (((s.lines.set s.cursor_line (p ++ c :: q))[s.cursor_line]?).getD [])
      (utf8Len p + c.utf8Size)).map (fun pr => lineWidth pr.1) = _
    rw [hget]
    show (splitAtByte (p ++ c :: q) (utf8Len p + c.utf8Size)).map (fun pr => lineWidth pr.1) = _
    rw [splitAtByte_after_char]
    simp [lineWidth_append, lineWidth]

theorem c8_display_width_witness :
    ∃ p q, splitAtByte (currentLine ⟨[['a']], 0, 1⟩) 1 = some (p, q) ∧
      displayed_cursor_column ⟨[['a']], 0, 1⟩ = some (lineWidth p) ∧
      ∃ s2, apply_event ⟨[['a']], 0, 1⟩ (.NewCharacter '中') = some s2 ∧
        displayed_cursor_column s2 = some (lineWidth p + charWidth '中') :=
  ((c8_display_width ⟨[['a']], 0, 1⟩ (by decide) '中').1)

/-- C10: `SplitLine` never changes the separator-free concatenation of the
document. -/
theorem c10_splitline_preserves_content (s : EditorState) (h : ValidState s) :
    ∃ s2, apply_event s .NewLine = some s2 ∧ content_str s2 = content_str s := by
  obtain ⟨hcl, hb⟩ := h
  obtain ⟨A, x, B, hdec, hA⟩ := exists_decomp (l := s.lines) hcl
  have hcur : s.lines[s.cursor_line]? = some x := by
    rw [hdec, ← hA]
    exact getq_append_len A x B
  have hcl2 : currentLine s = x := currentLine_of_getq hcur
  obtain ⟨⟨p, q⟩, hsplit⟩ := Option.isSome_iff_exists.mp hb
  rw [hcl2] at hsplit
  obtain ⟨hx, _⟩ := splitAtByte_eq_some hsplit
  have hset : s.lines.set s.cursor_line p = A ++ p :: B := by
    rw [hdec, ← hA]
    exact set_append_len A x p B
  have hins : vecInsert (A ++ p :: B) (s.cursor_line + 1) q = A ++ p :: q :: B := by
    rw [← hA, show A ++ p :: B = (A ++ [p]) ++ B by simp,
      show A.length + 1 = (A ++ [p]).length by simp, vecInsert_append_len]
    simp
  have hget2 : (A ++ p :: q :: B)[s.cursor_line + 1]? = some q := by
    rw [← hA, getq_append_len_succ]
    simp
  have hgoto := goto_line_eq (s := { s with lines := A ++ p :: q :: B })
    (i := s.cursor_line + 1) (l := q) hget2
  have happ : apply_event s .NewLine =
      some { s with
             lines := A ++ p :: q :: B,
             cursor_line := s.cursor_line + 1,
             cursor_col := 0 } := by
    simp only [apply_event, hcur, Option.bind_eq_bind, Option.some_bind, hsplit, hset, hins,
      hgoto]
  refine ⟨_, happ, ?_⟩
  simp [content_str, hdec, hx]

theorem c10_splitline_preserves_content_witness :
    ∃ s2, apply_event ⟨[['a', 'b']], 0, 1⟩ .NewLine = some s2 ∧
      content_str s2 = content_str ⟨[['a', 'b']], 0, 1⟩ :=
  c10_splitline_preserves_content ⟨[['a', 'b']], 0, 1⟩ (by decide)

/-- C3 counterexample: on the valid state `["ab"]` with `col = 0` the claim
predicts no deletion (no character lies before the cursor and `col` is
already 0, matching `killSpec`), but the code removes the line's *first*
character. -/
theorem c3_killword_at_col_zero_deletes :
    apply_event ⟨[['a', 'b']], 0, 0⟩ .KillWordBack = some ⟨[['b']], 0, 0⟩ ∧
    (⟨[['b']], 0, 0⟩ : EditorState) ≠ ⟨[['a', 'b']], 0, 0⟩ ∧
    killSpec ['a', 'b'] 0 = (['a', 'b'], 0) := by
  decide

/-- C3 (amended): on a valid state, `KillWordBack` is a no-op on an empty
line; at `col > 0` it agrees with the spec-modelled word kill `killSpec`
(repeatedly delete the character before the cursor, stopping after removing a
delimiter or at column 0), giving Scenario C concretely; but at `col = 0` on
a non-empty line it removes the first character of the line instead of doing
nothing. -/
theorem c3_killword_amended (s : EditorState) (h : ValidState s) :
    (currentLine s = [] → apply_event s .KillWordBack = some s) ∧
    (0 < s.cursor_col → apply_event s .KillWordBack =
      some { s with
             lines := s.lines.set s.cursor_line (killSpec (currentLine s) s.cursor_col).1,
             cursor_col := (killSpec (currentLine s) s.cursor_col).2 }) ∧
    (s.cursor_col = 0 → ∀ c rest, currentLine s = c :: rest →
      apply_event s .KillWordBack =
        some { s with lines := s.lines.set s.cursor_line rest, cursor_col := 0 }) ∧
    (apply_event (set_content initState [String.toList "as as as"]) .KillWordBack =
        some ⟨[String.toList "as as"], 0, 5⟩ ∧
      (set_content initState [String.toList "as as as"]).cursor_col = 8) := by
  obtain ⟨hcl, hb⟩ := h
  obtain ⟨cur, hcur⟩ := getq_some_of_lt hcl
  have hcl2 : currentLine s = cur := currentLine_of_getq hcur
  refine ⟨?_, ?_, ?_, by decide⟩
  · intro hnil
    rw [hcl2] at hnil
    subst hnil
    simp [apply_event, hcur]
  · intro hpos
    have hne : cur ≠ [] := by
      intro hc
      rw [hcl2, hc] at hb
      have := isBoundary_le hb
      rw [utf8Len_nil] at this
      omega
    have hie : cur.isEmpty = false := by
      cases cur
      · exact absurd rfl hne
      · rfl
    obtain ⟨hkill, _⟩ := killLoop_eq_killSpec hpos (hcl2 ▸ hb)
    rw [hcl2]
    simp only [apply_event, hcur, Option.bind_eq_bind, Option.some_bind, hie,
      Bool.false_eq_true, if_false, hkill]
  · intro hz c rest hcr
    rw [hcl2] at hcr
    subst hcr
    simp only [apply_event, hcur, Option.bind_eq_bind, Option.some_bind, List.isEmpty_cons,
      Bool.false_eq_true, if_false, hz, killLoop_zero]

theorem c3_killword_amended_witness :
    0 < (3 : Nat) ∧
      apply_event ⟨[['a', ' ', 'b']], 0, 3⟩ .KillWordBack =
        some { (⟨[['a', ' ', 'b']], 0, 3⟩ : EditorState) with
               lines := [['a', ' ', 'b']].set 0 (killSpec ['a', ' ', 'b'] 3).1,
               cursor_col := (killSpec ['a', ' ', 'b'] 3).2 } :=
  ⟨by decide, (c3_killword_amended ⟨[['a', ' ', 'b']], 0, 3⟩ (by decide)).2.1 (by decide)⟩

end PiprLineEditor
